import Mathlib

/-!
Shallow embedding of the smvblock ledger core (repository `s-mv/smvblock`).

Conventions used throughout this development:
* Byte strings are `List Nat`, each entry in `0..255`.
* Machine integers (`u64`, `i64`) are embedded as `Nat` / `Int`; arithmetic
  that can overflow in Rust is guarded explicitly.  The Rust sources are
  built with the default (debug) profile, under which integer overflow
  aborts the program; an aborting computation is modelled as `none` of an
  `Option`, never as a wrapped value.
* Ed25519 signature checking and verifying-key parsing are opaque
  cryptographic primitives; they enter the model as explicit oracle
  parameters (`pkv`, `edv`).  SHA-256 is embedded concretely and fully
  executable.
* Loops without a structural measure (proof-of-work mining, Merkle level
  reduction, 64-byte chunking) take an explicit fuel argument; fuel
  exhaustion is `none` or an unreachable default that the adequacy lemmas
  rule out.
-/

namespace Smv

/-- Low k bytes of n, little endian. -/
def leBytes (k n : Nat) : List Nat :=
  (List.range k).map fun i => (n >>> (8 * i)) &&& 255

/-- Low k bytes of n, big endian. -/
def beBytes (k n : Nat) : List Nat :=
  (leBytes k n).reverse

/-- Little-endian bytes of an i64 timestamp (two's complement). -/
def leBytesI64 (t : Int) : List Nat :=
  leBytes 8 (t % (2 ^ 64 : Int)).toNat

/-- List of k zero bytes. -/
def zeroBytes (k : Nat) : List Nat :=
  List.replicate k 0

/-! SHA-256, embedded concretely over byte lists.  Word arithmetic is on
`Nat` reduced mod 2^32 so that kernel evaluation is fast. -/

def w32 (n : Nat) : Nat := n % 4294967296

def rotr32 (x n : Nat) : Nat :=
  w32 ((x >>> n) ||| (x <<< (32 - n)))

def shaCh (x y z : Nat) : Nat :=
  (x &&& y) ^^^ ((x ^^^ 4294967295) &&& z)

def shaMaj (x y z : Nat) : Nat :=
  (x &&& y) ^^^ (x &&& z) ^^^ (y &&& z)

def bigS0 (x : Nat) : Nat := rotr32 x 2 ^^^ rotr32 x 13 ^^^ rotr32 x 22

def bigS1 (x : Nat) : Nat := rotr32 x 6 ^^^ rotr32 x 11 ^^^ rotr32 x 25

def smallS0 (x : Nat) : Nat := rotr32 x 7 ^^^ rotr32 x 18 ^^^ (x >>> 3)

def smallS1 (x : Nat) : Nat := rotr32 x 17 ^^^ rotr32 x 19 ^^^ (x >>> 10)

def shaK : List Nat :=
  [1116352408, 1899447441, 3049323471, 3921009573,
   961987163, 1508970993, 2453635748, 2870763221,
   3624381080, 310598401, 607225278, 1426881987,
   1925078388, 2162078206, 2614888103, 3248222580,
   3835390401, 4022224774, 264347078, 604807628,
   770255983, 1249150122, 1555081692, 1996064986,
   2554220882, 2821834349, 2952996808, 3210313671,
   3336571891, 3584528711, 113926993, 338241895,
   666307205, 773529912, 1294757372, 1396182291,
   1695183700, 1986661051, 2177026350, 2456956037,
   2730485921, 2820302411, 3259730800, 3345764771,
   3516065817, 3600352804, 4094571909, 275423344,
   430227734, 506948616, 659060556, 883997877,
   958139571, 1322822218, 1537002063, 1747873779,
   1955562222, 2024104815, 2227730452, 2361852424,
   2428436474, 2756734187, 3204031479, 3329325298]

def shaH0 : List Nat :=
  [1779033703, 3144134277, 1013904242, 2773480762,
   1359893119, 2600822924, 528734635, 1541459225]

/-- Extend 16 schedule words to 64. -/
def shaExtend (w16 : List Nat) : List Nat :=
  (List.range 48).foldl
    (fun w _ =>
      let t := w.length
      let a := w.getD (t - 2) 0
      let b := w.getD (t - 7) 0
      let c := w.getD (t - 15) 0
      let d := w.getD (t - 16) 0
      w ++ [w32 (smallS1 a + b + smallS0 c + d)])
    w16

/-- One round of the SHA-256 compression function on an 8-register list. -/
def shaRound (regs : List Nat) (k w : Nat) : List Nat :=
  match regs with
  | [a, b, c, d, e, f, g, h] =>
    let t1 := w32 (h + bigS1 e + shaCh e f g + k + w)
    let t2 := w32 (bigS0 a + shaMaj a b c)
    [w32 (t1 + t2), a, b, c, w32 (d + t1), e, f, g]
  | r => r

/-- Compress one 64-word schedule into the running hash state. -/
def shaCompress (h : List Nat) (w : List Nat) : List Nat :=
  let regs := (List.zip shaK w).foldl (fun r kw => shaRound r kw.1 kw.2) h
  (List.zip h regs).map fun p => w32 (p.1 + p.2)

/-- Group a byte list into sublists of k bytes; fuel-driven so that the
kernel can evaluate it (fuel at least the list length is adequate). -/
def chunksAux (k : Nat) : Nat → List Nat → List (List Nat)
  | _, [] => []
  | 0, l => [l]
  | fuel + 1, l => l.take k :: chunksAux k fuel (l.drop k)

/-- Big-endian word from 4 bytes. -/
def wordOfBytes (bs : List Nat) : Nat :=
  bs.foldl (fun acc b => acc * 256 + b) 0

/-- SHA-256 padding: append 0x80, zeros to 56 mod 64, and the 64-bit
big-endian bit length. -/
def sha256pad (msg : List Nat) : List Nat :=
  let l := msg.length
  let z := (119 - l % 64) % 64
  msg ++ [128] ++ zeroBytes z ++ beBytes 8 (8 * l)

/-- SHA-256 of a byte list, as a list of 32 bytes. -/
def sha256 (msg : List Nat) : List Nat :=
  let padded := sha256pad msg
  let blocks := chunksAux 64 padded.length padded
  let final := blocks.foldl
    (fun h blk =>
      let w16 := (chunksAux 4 blk.length blk).map wordOfBytes
      shaCompress h (shaExtend w16))
    shaH0
  final.flatMap (beBytes 4)

end Smv

/-- Decidable equality for `Except`, used to evaluate the embedded
functions at concrete inputs. -/
instance {ε α : Type} [DecidableEq ε] [DecidableEq α] : DecidableEq (Except ε α) := fun x y =>
  match x, y with
  | .error a, .error b =>
    if h : a = b then isTrue (by rw [h]) else isFalse (by simp [h])
  | .ok a, .ok b =>
    if h : a = b then isTrue (by rw [h]) else isFalse (by simp [h])
  | .error _, .ok _ => isFalse (by simp)
  | .ok _, .error _ => isFalse (by simp)

/-! Embedding of the `smv-core` crate: `crypto.rs`, `state.rs`,
`transaction.rs`, `block.rs`, `blockchain.rs`. -/

namespace Core

/-- Addresses and hashes are 32-byte values (`crypto.rs`). -/
abbrev Address := List Nat

/-- Error kinds of `BlockchainError` in `smv-core/src/lib.rs` (the variants
the embedded functions can produce). -/
inductive BcError where
  | invalidSignature
  | invalidHash
  | insufficientBalance
  | invalidNonce
  | invalidProofOfWork
  | invalidSenderAddress
  | stateError
  deriving DecidableEq, Repr

/-- Transaction from `smv-core/src/transaction.rs`.  `amount` and `nonce`
are u64 values; `signature` is 64 bytes, `sender_public_key` 32 bytes. -/
structure Transaction where
  sender : Address
  receiver : Address
  amount : Nat
  nonce : Nat
  signature : List Nat
  sender_public_key : List Nat
  deriving DecidableEq, Repr

/-- Association-list lookup defaulting to 0, modelling
`map.get(k).unwrap_or(&0)` on the `HashMap`s of `state.rs`. -/
def getOr0 (k : Address) (l : List (Address × Nat)) : Nat :=
  match l.find? (fun p => p.1 = k) with
  | some p => p.2
  | none => 0

/-- Association-list insert modelling `HashMap::insert` (replace any
existing binding for the key). -/
def insertKV (k : Address) (v : Nat) (l : List (Address × Nat)) :
    List (Address × Nat) :=
  (k, v) :: l.filter (fun p => p.1 ≠ k)

/-- State from `smv-core/src/state.rs`: balances and nonces keyed by
address, both defaulting to 0 on missing keys. -/
structure State where
  balances : List (Address × Nat)
  nonces : List (Address × Nat)
  deriving DecidableEq, Repr

def State.empty : State := ⟨[], []⟩

/-- Embeds `State::get_balance`. -/
def State.getBalance (st : State) (a : Address) : Nat :=
  getOr0 a st.balances

/-- Stored nonce entry of an address (the raw `HashMap` content). -/
def State.storedNonce (st : State) (a : Address) : Nat :=
  getOr0 a st.nonces

/-- Embeds `State::get_nonce`, which returns the stored nonce plus one
(`self.nonces.get(address).unwrap_or(&0) + 1`).  The addition aborts in
Rust when the stored value is `u64::MAX`; callers guard for that. -/
def State.getNonce (st : State) (a : Address) : Nat :=
  st.storedNonce a + 1

/-- Embeds `State::apply_transaction`.  Mirrors the source order: nonce
check, balance check, debit sender, credit receiver (the receiver balance
is read after the sender was debited), record the nonce.  `none` models an
aborting u64 overflow; `some (error e, st)` is an early return, which in
the source happens before any mutation, so it carries the input state. -/
def State.applyTransaction (st : State) (tx : Transaction) :
    Option (Except BcError Unit × State) :=
  if st.storedNonce tx.sender + 1 ≥ 2 ^ 64 then none
  else if tx.nonce ≠ st.storedNonce tx.sender + 1 then
    some (.error .invalidNonce, st)
  else if st.getBalance tx.sender < tx.amount then
    some (.error .insufficientBalance, st)
  else if getOr0 tx.receiver (insertKV tx.sender (st.getBalance tx.sender - tx.amount) st.balances) + tx.amount ≥ 2 ^ 64 then
    none
  else
    some (.ok (),
      ⟨insertKV tx.receiver
          (getOr0 tx.receiver (insertKV tx.sender (st.getBalance tx.sender - tx.amount) st.balances) + tx.amount)
          (insertKV tx.sender (st.getBalance tx.sender - tx.amount) st.balances),
        insertKV tx.sender tx.nonce st.nonces⟩)

/-- Embeds `State::set_nonce`. -/
def State.setNonce (st : State) (a : Address) (n : Nat) : State :=
  { st with nonces := insertKV a n st.nonces }

/-- Embeds `State::set_balance`. -/
def State.setBalance (st : State) (a : Address) (b : Nat) : State :=
  { st with balances := insertKV a b st.balances }

/-- Canonical message of a transaction:
`sender || receiver || amount_le_u64 || nonce_le_u64`
(`Transaction::create_message`). -/
def txMessage (tx : Transaction) : List Nat :=
  tx.sender ++ tx.receiver ++ Smv.leBytes 8 tx.amount ++ Smv.leBytes 8 tx.nonce

/-- Oracle for `VerifyingKey::from_bytes` succeeding on 32 key bytes. -/
abbrev PkOracle := List Nat → Bool

/-- Oracle for Ed25519 verification: key bytes, message, signature. -/
abbrev EdOracle := List Nat → List Nat → List Nat → Bool

/-- Embeds `Transaction::verify`: parse the key (failure is
InvalidSignature), check `sha256(public_key) == sender` (failure is
InvalidSenderAddress), then verify the signature over the SHA-256 of the
canonical message. -/
def txVerify (pkv : PkOracle) (edv : EdOracle) (tx : Transaction) :
    Except BcError Unit :=
  if ¬ pkv tx.sender_public_key then .error .invalidSignature
  else if Smv.sha256 tx.sender_public_key ≠ tx.sender then .error .invalidSenderAddress
  else if ¬ edv tx.sender_public_key (Smv.sha256 (txMessage tx)) tx.signature then
    .error .invalidSignature
  else .ok ()

/-- Embeds `Transaction::validate_full`: light validation, then the
balance check, then the nonce comparison
`self.nonce != state.get_nonce(sender) + 1`.  Note that `get_nonce`
already returns the stored nonce plus one, so the comparison is against
the stored nonce plus two.  `none` models the aborting overflow of either
addition. -/
def validateFull (pkv : PkOracle) (edv : EdOracle) (st : State)
    (tx : Transaction) : Option (Except BcError Unit) :=
  match txVerify pkv edv tx with
  | .error e => some (.error e)
  | .ok () =>
    if st.getBalance tx.sender < tx.amount then some (.error .insufficientBalance)
    else if st.storedNonce tx.sender + 1 ≥ 2 ^ 64 then none
    else if st.getNonce tx.sender + 1 ≥ 2 ^ 64 then none
    else if tx.nonce ≠ st.getNonce tx.sender + 1 then some (.error .invalidNonce)
    else some (.ok ())

/-- Block from `smv-core/src/block.rs`.  The timestamp is the i64 of
`DateTime<Utc>::timestamp()`. -/
structure Block where
  timestamp : Int
  transactions : List Transaction
  previous_hash : List Nat
  hash : List Nat
  nonce : Nat
  deriving DecidableEq, Repr

/-- Embeds `Block::calculate_hash`: SHA-256 over the little-endian
timestamp, the per-transaction hashes, the previous hash, and the
little-endian nonce. -/
def calculateHash (b : Block) : List Nat :=
  Smv.sha256 (Smv.leBytesI64 b.timestamp
    ++ (b.transactions.flatMap fun tx => Smv.sha256 (txMessage tx))
    ++ b.previous_hash
    ++ Smv.leBytes 8 b.nonce)

/-- Embeds `Block::is_valid_proof`: the recomputed hash starts with
`DIFFICULTY = 2` zero bytes. -/
def isValidProof (b : Block) : Bool :=
  (calculateHash b).take 2 = Smv.zeroBytes 2

/-- One iteration of the mining loop body: increment the nonce, then
store the recomputed hash. -/
def mineStep (b : Block) : Block :=
  let b1 : Block := { b with nonce := b.nonce + 1 }
  { b1 with hash := calculateHash b1 }

/-- Embeds `Block::mine`: `while !is_valid_proof { nonce += 1; hash =
calculate_hash() }`, with fuel bounding the number of iterations (the
u64 nonce cannot wrap within any fuel below 2^64, since it starts at 0
and increments once per iteration). -/
def mineAux : Nat → Block → Option Block
  | 0, b => if isValidProof b then some b else none
  | fuel + 1, b => if isValidProof b then some b else mineAux fuel (mineStep b)

/-- Embeds `Block::new`: timestamp from the clock (a parameter here),
nonce 0, hash 32 zero bytes, then mine. -/
def Block.new (ts : Int) (txs : List Transaction) (prev : List Nat)
    (fuel : Nat) : Option Block :=
  mineAux fuel { timestamp := ts, transactions := txs, previous_hash := prev,
                 hash := Smv.zeroBytes 32, nonce := 0 }

/-- Verify every transaction of a list, stopping at the first error
(the loop in `Block::verify`). -/
def txsVerify (pkv : PkOracle) (edv : EdOracle) :
    List Transaction → Except BcError Unit
  | [] => .ok ()
  | tx :: rest =>
    match txVerify pkv edv tx with
    | .error e => .error e
    | .ok () => txsVerify pkv edv rest

/-- Embeds `Block::verify`: proof-of-work check on the recomputed hash,
then comparison of the stored hash with the recomputed hash, then light
verification of every transaction. -/
def blockVerify (pkv : PkOracle) (edv : EdOracle) (b : Block) :
    Except BcError Unit :=
  if ¬ isValidProof b then .error .invalidProofOfWork
  else if b.hash ≠ calculateHash b then .error .invalidHash
  else txsVerify pkv edv b.transactions

/-- Ledger from `smv-core/src/blockchain.rs`. -/
structure Blockchain where
  blocks : List Block
  state : State
  pending_transactions : List Transaction
  deriving DecidableEq, Repr

/-- Embeds `Blockchain::new`: a freshly mined genesis block over the empty
transaction list and a 32-zero-byte previous hash, with empty state and
pending pool.  `none` when the mining fuel runs out. -/
def Blockchain.new (ts : Int) (fuel : Nat) : Option Blockchain :=
  (Block.new ts [] (Smv.zeroBytes 32) fuel).map fun g =>
    { blocks := [g], state := State.empty, pending_transactions := [] }

/-- Embeds `Blockchain::add_transaction`: `verify()?`, then
`state.apply_transaction(&tx)?`, then push onto the pending pool.  Early
returns happen before any mutation, so the error cases carry the ledger
resulting from the partial execution (which the theorems show equals the
input ledger). -/
def Blockchain.addTransaction (pkv : PkOracle) (edv : EdOracle)
    (bc : Blockchain) (tx : Transaction) :
    Option (Except BcError Unit × Blockchain) :=
  match txVerify pkv edv tx with
  | .error e => some (.error e, bc)
  | .ok () =>
    match bc.state.applyTransaction tx with
    | none => none
    | some (.error e, st1) => some (.error e, { bc with state := st1 })
    | some (.ok (), st1) =>
      some (.ok (), { bc with state := st1, pending_transactions := bc.pending_transactions ++ [tx] })

/-- Hash of the last block, 32 zero bytes if there is none
(`blocks.last().map(|b| b.hash).unwrap_or([0; 32])`). -/
def lastHash (bs : List Block) : List Nat :=
  match bs.getLast? with
  | some b => b.hash
  | none => Smv.zeroBytes 32

/-- Embeds `Blockchain::mine_block`: previous hash from the last block
(32 zero bytes if there is none), drain the pending pool into a freshly
mined block, verify it, append on success.  The drain happens before the
verification, so a failed verification still empties the pool. -/
def Blockchain.mineBlock (pkv : PkOracle) (edv : EdOracle)
    (bc : Blockchain) (ts : Int) (fuel : Nat) :
    Option (Except BcError Block × Blockchain) :=
  match Block.new ts bc.pending_transactions (lastHash bc.blocks) fuel with
  | none => none
  | some b =>
    match blockVerify pkv edv b with
    | .error e => some (.error e, { bc with pending_transactions := [] })
    | .ok () =>
      some (.ok b, { bc with blocks := bc.blocks ++ [b], pending_transactions := [] })

/-- Replay of `Blockchain::from_blocks`: apply every contained
transaction to the running state, discarding any error
(`apply_transaction(tx).unwrap_or_else(|_| ())` in the source).  `none`
models an aborting overflow inside `apply_transaction`. -/
def replayAux : State → List Transaction → Option State
  | st, [] => some st
  | st, tx :: rest =>
    match st.applyTransaction tx with
    | none => none
    | some (_, st1) => replayAux st1 rest

/-- Embeds `Blockchain::from_blocks`: adopt the blocks as given and
rebuild the state by replaying every transaction in order, silently
skipping those that fail to apply. -/
def Blockchain.fromBlocks (blocks : List Block) : Option Blockchain :=
  (replayAux State.empty (blocks.flatMap Block.transactions)).map fun st =>
    { blocks := blocks, state := st, pending_transactions := [] }

/-- Apply a list of transactions requiring every one to succeed; `none`
when any application returns an error or aborts.  Used to phrase the
accepted-nonce-sequence property. -/
def applyChain : State → List Transaction → Option State
  | st, [] => some st
  | st, tx :: rest =>
    match st.applyTransaction tx with
    | some (.ok (), st1) => applyChain st1 rest
    | _ => none

/-- Ledger evolutions covered by the chain-linkage claim: start from
`Blockchain::new` and step by `add_transaction` (any signature oracles)
or `mine_block` (any clock value and mining fuel). -/
inductive Reached : Blockchain → Prop
  | new (ts : Int) (fuel : Nat) (bc : Blockchain) :
      Blockchain.new ts fuel = some bc → Reached bc
  | addTx (pkv : PkOracle) (edv : EdOracle) (bc : Blockchain)
      (tx : Transaction) (r : Except BcError Unit) (bc1 : Blockchain) :
      Reached bc → Blockchain.addTransaction pkv edv bc tx = some (r, bc1) →
      Reached bc1
  | mine (pkv : PkOracle) (edv : EdOracle) (bc : Blockchain) (ts : Int)
      (fuel : Nat) (r : Except BcError Block) (bc1 : Blockchain) :
      Reached bc → Blockchain.mineBlock pkv edv bc ts fuel = some (r, bc1) →
      Reached bc1

end Core

/-! Embedding of the stake-weighted variant in `src/blockchain.rs` and
`src/db.rs` (Merkle root, users, validator reward). -/

namespace Pos

/-- Unsigned transfer payload (`Transfer` in `src/blockchain.rs`):
receiver address, amount, nonce. -/
structure Transfer where
  receiver : List Nat
  amount : Nat
  nonce : Nat
  deriving DecidableEq, Repr

/-- Signed transaction (`Transaction` in `src/blockchain.rs`): payload,
32 sender public key bytes, 64 signature bytes. -/
structure Transaction where
  payload : Transfer
  sender_public_key : List Nat
  signature : List Nat
  deriving DecidableEq, Repr

/-- Variable-length integer encoding of bincode 2 with the `standard()`
configuration: values below 251 are a single byte, then markers 251, 252,
253 introduce little-endian u16, u32, u64 payloads. -/
def varint (n : Nat) : List Nat :=
  if n < 251 then [n]
  else if n < 2 ^ 16 then 251 :: Smv.leBytes 2 n
  else if n < 2 ^ 32 then 252 :: Smv.leBytes 4 n
  else 253 :: Smv.leBytes 8 n

/-- Bincode encoding of a `Transfer`: the 32 receiver bytes raw, then
the varint amount and nonce. -/
def encodeTransfer (t : Transfer) : List Nat :=
  t.receiver ++ varint t.amount ++ varint t.nonce

/-- Bincode encoding of a full `Transaction`: the payload followed by the
raw public-key and signature bytes. -/
def encodeTransaction (tx : Transaction) : List Nat :=
  encodeTransfer tx.payload ++ tx.sender_public_key ++ tx.signature

/-- Leaf hash used by `compute_merkle_root` in the source: SHA-256 of the
bincode encoding of the entire transaction, signature and public key
included. -/
def leafCode (tx : Transaction) : List Nat :=
  Smv.sha256 (encodeTransaction tx)

/-- Sender address derivation (`Transaction::sender_address`). -/
def senderAddress (tx : Transaction) : List Nat :=
  Smv.sha256 tx.sender_public_key

/-- Leaf hash asserted by the specification: SHA-256 of
`sender || receiver || amount_le_u64 || nonce_le_u64`, excluding the
signature and the public key. -/
def leafClaim (tx : Transaction) : List Nat :=
  Smv.sha256 (senderAddress tx ++ tx.payload.receiver
    ++ Smv.leBytes 8 tx.payload.amount ++ Smv.leBytes 8 tx.payload.nonce)

/-- Hash adjacent pairs (`chunks(2)` followed by a pair hash); defined on
even-length lists, a stray odd element is dropped (the source never
reaches that case because the level was made even first). -/
def pairUp : List (List Nat) → List (List Nat)
  | a :: b :: rest => Smv.sha256 (a ++ b) :: pairUp rest
  | _ => []

/-- Duplicate the last hash when the level has odd count
(`hashes.push(hashes.last().unwrap().clone())`). -/
def evened (hs : List (List Nat)) : List (List Nat) :=
  if hs.length % 2 ≠ 0 then hs ++ [hs.getLastD []] else hs

/-- The `while hashes.len() > 1` loop of `compute_merkle_root`, with fuel
so the kernel can evaluate it; the initial level length is adequate
fuel. -/
def merkleLoop : Nat → List (List Nat) → List Nat
  | _, [] => Smv.sha256 []
  | _, [h] => h
  | 0, hs => hs.headD (Smv.sha256 [])
  | fuel + 1, hs => merkleLoop fuel (pairUp (evened hs))

/-- Embeds `compute_merkle_root`: SHA-256 of the empty byte string for an
empty transaction list, otherwise the pair-hash reduction of the
full-encoding leaf hashes. -/
def computeMerkleRoot (txs : List Transaction) : List Nat :=
  if txs.isEmpty then Smv.sha256 []
  else merkleLoop txs.length (txs.map leafCode)

/-- Reference level step, written from the specification text: with an
odd count the last hash is duplicated before adjacent pairs are hashed
together. -/
def levelRef : List (List Nat) → List (List Nat)
  | [] => []
  | [a] => [Smv.sha256 (a ++ a)]
  | a :: b :: rest => Smv.sha256 (a ++ b) :: levelRef rest

/-- Reference reduction, written from the specification text: repeat the
level step until one hash remains. -/
def rootRef : Nat → List (List Nat) → List Nat
  | _, [] => Smv.sha256 []
  | _, [h] => h
  | 0, hs => hs.headD (Smv.sha256 [])
  | fuel + 1, hs => rootRef fuel (levelRef hs)

/-- Reference Merkle root over a given leaf function, written from the
specification text: hash each transaction, reduce level by level, and
map the empty set to the hash of the empty byte string. -/
def merkleRef (leaf : Transaction → List Nat) (txs : List Transaction) :
    List Nat :=
  if txs.isEmpty then Smv.sha256 []
  else rootRef txs.length (txs.map leaf)

/-- Account record (`User` in `src/blockchain.rs`). -/
structure User where
  address : List Nat
  public_key : List Nat
  balance : Nat
  stake : Nat
  deriving DecidableEq, Repr

/-- The users table, keyed by address (`users` in `src/db.rs`). -/
abbrev UserDb := List User

/-- Embeds `Database::get_user`: the row whose address matches. -/
def getUser (db : UserDb) (a : List Nat) : Option User :=
  db.find? fun u => u.address = a

/-- Embeds `Database::update_user`: rewrite balance and stake of the rows
with the given address. -/
def updateUser (db : UserDb) (u : User) : UserDb :=
  db.map fun v => if v.address = u.address then { v with balance := u.balance, stake := u.stake } else v

/-- Embeds `Database::get_total_stake`: `SELECT SUM(stake) FROM users`. -/
def totalStake (db : UserDb) : Nat :=
  (db.map User.stake).sum

/-! Exact model of the IEEE-754 binary64 computation in
`reward_validator`: `(user.stake as f64 / total_stake as f64).round() as
u64`.  A nonnegative f64 value in the normal range is represented by the
exact fraction it denotes; `u64 as f64` and `/` round to nearest with
ties to even, `.round()` rounds half away from zero, and `as u64`
saturates.  The values arising here (u64 inputs, their quotients) all lie
far inside the normal range, so subnormals and overflow never enter.
Fractions are unreduced integer pairs with positive denominators so that
every operation is structural and kernel-evaluable. -/

/-- An exact fraction: numerator over positive denominator, unreduced. -/
structure Frac where
  n : Int
  d : Int
  deriving Repr

/-- Fraction for an integer. -/
def fofInt (x : Int) : Frac := ⟨x, 1⟩

/-- Strict order of fractions (denominators positive). -/
def flt (a b : Frac) : Prop := a.n * b.d < b.n * a.d

instance (a b : Frac) : Decidable (flt a b) := by
  unfold flt; infer_instance

/-- Exact quotient of two fractions; signs are normalised onto the
numerator (the zero-divisor case never arises under the guards of the
callers). -/
def fdivF (a b : Frac) : Frac :=
  if b.n < 0 then ⟨-(a.n * b.d), -(a.d * b.n)⟩ else ⟨a.n * b.d, a.d * b.n⟩

/-- Multiply a fraction by 2^k for an integer exponent. -/
def fscale2 (k : Int) (a : Frac) : Frac :=
  if 0 ≤ k then ⟨a.n * 2 ^ k.toNat, a.d⟩ else ⟨a.n, a.d * 2 ^ (-k).toNat⟩

/-- The fraction 2^k. -/
def fpow2 (k : Int) : Frac := fscale2 k (fofInt 1)

/-- Floor of a fraction, by floor division. -/
def ffloor (a : Frac) : Int := a.n.fdiv a.d

/-- Fuelled base-2 logarithm (fuel at least the argument is adequate);
structural so that the kernel can evaluate it. -/
def log2fuel : Nat → Nat → Nat
  | 0, _ => 0
  | fuel + 1, n => if n ≥ 2 then log2fuel fuel (n / 2) + 1 else 0

/-- Floor of the base-2 logarithm of a positive natural. -/
def nlog2 (n : Nat) : Nat := log2fuel n n

/-- Floor of the base-2 logarithm of a positive fraction. -/
def floorLog2F (q : Frac) : Int :=
  let k : Int := (nlog2 q.n.toNat : Int) - (nlog2 q.d.toNat : Int)
  if flt q (fpow2 (k - 1)) then k - 2
  else if flt q (fpow2 k) then k - 1
  else if flt q (fpow2 (k + 1)) then k
  else k + 1

/-- Round a fraction to the nearest integer, ties to even: with
`m = floor x`, compare the remainder against one half by
cross-multiplication. -/
def rteZ (x : Frac) : Int :=
  let m := ffloor x
  if 2 * (x.n - m * x.d) < x.d then m
  else if x.d < 2 * (x.n - m * x.d) then m + 1
  else if m % 2 = 0 then m else m + 1

/-- Round a nonnegative fraction to the nearest binary64 value (53-bit
significand, round to nearest, ties to even), assuming the normal
range. -/
def f64round (q : Frac) : Frac :=
  if q.n ≤ 0 then fofInt 0
  else
    let e := floorLog2F q - 52
    fscale2 e (fofInt (rteZ (fscale2 (-e) q)))

/-- Value of `n as f64` for a u64 `n`. -/
def u64ToF64 (n : Nat) : Frac :=
  f64round (fofInt n)

/-- Correctly rounded binary64 division of two represented values. -/
def f64div (x y : Frac) : Frac :=
  f64round (fdivF x y)

/-- Value of `f64::round()`: round half away from zero, computed as
floor(x + 1/2) for nonnegative x. -/
def roundHalfAway (x : Frac) : Int :=
  if 0 ≤ x.n then ffloor ⟨2 * x.n + x.d, 2 * x.d⟩
  else -(ffloor ⟨-(2 * x.n) + x.d, 2 * x.d⟩)

/-- Saturating `as u64` cast of an integral float value. -/
def castU64 (x : Int) : Nat :=
  (min x ((2 : Int) ^ 64 - 1)).toNat

/-- The reward `reward_validator` computes from a stake and the total
stake: `(stake as f64 / total_stake as f64).round() as u64`. -/
def rewardOf (s t : Nat) : Nat :=
  castU64 (roundHalfAway (f64div (u64ToF64 s) (u64ToF64 t)))

/-- Error of `reward_validator` when the address has no row. -/
inductive RewardError where
  | validatorNotFound
  deriving DecidableEq, Repr

/-- Embeds `Blockchain::reward_validator`: look the validator up, add the
computed reward to its balance, and write the row back.  `none` models
the aborting overflow of `user.balance += reward`. -/
def rewardValidator (db : UserDb) (a : List Nat) :
    Option (Except RewardError UserDb) :=
  match getUser db a with
  | none => some (.error .validatorNotFound)
  | some u =>
    let reward := rewardOf u.stake (totalStake db)
    if u.balance + reward ≥ 2 ^ 64 then none
    else some (.ok (updateUser db { u with balance := u.balance + reward }))

end Pos

/-! Predicates used to state the claims, and the concrete inputs used by
the witnesses and counterexamples. -/

namespace Core

/-- Sum of the entries of the balances map (the total amount of value in
the state). -/
def sumBalances (st : State) : Nat :=
  (st.balances.map Prod.snd).sum

/-- Keys of an association list are pairwise distinct; every list that
models a `HashMap` satisfies this. -/
def nodupKeys (l : List (Address × Nat)) : Prop :=
  (l.map Prod.fst).Nodup

/-- A state whose two maps model `HashMap`s. -/
def State.WF (st : State) : Prop :=
  nodupKeys st.balances ∧ nodupKeys st.nonces

instance (l : List (Address × Nat)) : Decidable (nodupKeys l) := by
  unfold nodupKeys; infer_instance

instance (st : State) : Decidable st.WF := by
  unfold State.WF; infer_instance

/-- The first block is a genesis block: previous hash of 32 zero bytes
and no transactions. -/
def genesisOk : List Block → Prop
  | [] => False
  | g :: _ => g.previous_hash = Smv.zeroBytes 32 ∧ g.transactions = []

/-- Chain linkage as a recursive predicate: every block after the first
points at the hash of its predecessor. -/
def linkedChain : List Block → Prop
  | [] => True
  | [_] => True
  | b1 :: b2 :: rest => b2.previous_hash = b1.hash ∧ linkedChain (b2 :: rest)

end Core

/-- Signature-parsing oracle that accepts every key. -/
def pkvTrue : Core.PkOracle := fun _ => true

/-- Ed25519 oracle that accepts every signature. -/
def edvTrue : Core.EdOracle := fun _ _ _ => true

/-- A concrete 32-byte public key used by the concrete scenarios. -/
def pkW : List Nat := List.replicate 32 7

/-- Address derived from `pkW`, so that the sha-vs-sender check of
`Transaction::verify` passes. -/
def addrW : Core.Address := Smv.sha256 pkW

/-- Concrete addresses for scenarios that do not exercise signatures. -/
def addrA : Core.Address := List.replicate 32 1

def addrB : Core.Address := List.replicate 32 2

/-- State of the repository test `test_full_validation_success`: sender
balance 1000, stored sender nonce 0. -/
def stW1 : Core.State := ⟨[(addrW, 1000)], [(addrW, 0)]⟩

/-- Transaction of that test: amount 500, nonce 1, from the stored-nonce-0
sender. -/
def txW1 : Core.Transaction := ⟨addrW, addrB, 500, 1, List.replicate 64 9, pkW⟩

/-- Fallback block value for `Option.getD`. -/
def blockDefault : Core.Block := ⟨0, [], [], [], 0⟩

/-- Block mined at clock value 24395 over no transactions and a zero
previous hash; at this timestamp the nonce-0 contents already satisfy the
difficulty, so the mining loop body never runs. -/
def b24 : Core.Block :=
  (Core.Block.new 24395 [] (Smv.zeroBytes 32) 5).getD blockDefault

/-- Fallback blockchain value for `Option.getD`. -/
def bcDefault : Core.Blockchain := ⟨[], Core.State.empty, []⟩

/-- Ledger created at clock value 94594, where the genesis block mines at
nonce 1, within fuel 1. -/
def bcG : Core.Blockchain :=
  (Core.Blockchain.new 94594 1).getD bcDefault

/-- Two self-contained transactions from `addrA` with nonces 1 and 2. -/
def txA1 : Core.Transaction := ⟨addrA, addrB, 0, 1, [], []⟩

def txA2 : Core.Transaction := ⟨addrA, addrB, 0, 2, [], []⟩

/-- A transaction from `addrA` with the skipping nonce 7. -/
def txA7 : Core.Transaction := ⟨addrA, addrB, 0, 7, [], []⟩

/-- State reached by applying `txA1` and `txA2` from the empty state. -/
def stW5 : Core.State :=
  (Core.applyChain Core.State.empty [txA1, txA2]).getD Core.State.empty

/-- State with balances 10 and 5 for the conservation scenario. -/
def stW6 : Core.State := ⟨[(addrA, 10), (addrB, 5)], []⟩

/-- Transfer of 3 from `addrA` to `addrB` with nonce 1. -/
def txW6 : Core.Transaction := ⟨addrA, addrB, 3, 1, [], []⟩

/-- State reached by the conservation scenario. -/
def stW6a : Core.State :=
  (match Core.State.applyTransaction stW6 txW6 with
   | some (_, st) => st
   | none => Core.State.empty)

/-- Ledger whose sender has balance 0 (insufficient-balance scenario). -/
def bcW7 : Core.Blockchain := ⟨[blockDefault], Core.State.empty, []⟩

/-- Transaction of amount 50 and nonce 1 from the balance-0 sender. -/
def txW7 : Core.Transaction := ⟨addrW, addrB, 50, 1, List.replicate 64 9, pkW⟩

/-- Block embedding a single transaction whose nonce 5 cannot apply. -/
def blockBad : Core.Block :=
  ⟨0, [txA7], Smv.zeroBytes 32, Smv.zeroBytes 32, 0⟩

/-- Ledger whose state holds balance 100 for `addrW`. -/
def bcW9 : Core.Blockchain := ⟨[], ⟨[(addrW, 100)], []⟩, []⟩

/-- Self-transfer: sender and receiver are both `addrW`, amount 50,
nonce 1, with the signature key of `addrW`. -/
def txSelf : Core.Transaction := ⟨addrW, addrW, 50, 1, List.replicate 64 9, pkW⟩

/-- Concrete PoS transaction for the Merkle counterexample. -/
def txP : Pos.Transaction :=
  ⟨⟨List.replicate 32 3, 5, 1⟩, List.replicate 32 7, List.replicate 64 9⟩

/-- Validator with stake 1 and balance 10. -/
def valU : Pos.User := ⟨[1], [], 10, 1⟩

/-- Second staker bringing the total stake to 2. -/
def othU : Pos.User := ⟨[2], [], 0, 1⟩

/-- Users table for the reward counterexample. -/
def dbW : Pos.UserDb := [valU, othU]

/-! Lemmas about the association-list model of `HashMap`. -/

namespace Core

theorem getOr0_insertKV_self (k : Address) (v : Nat) (l : List (Address × Nat)) :
    getOr0 k (insertKV k v l) = v := by
  simp [getOr0, insertKV, List.find?_cons]

theorem find?_filter_ne (k k' : Address) (h : k' ≠ k) (l : List (Address × Nat)) :
    (l.filter fun p => p.1 ≠ k).find? (fun p => decide (p.1 = k')) =
      l.find? (fun p => decide (p.1 = k')) := by
  induction l with
  | nil => rfl
  | cons a t ih =>
    by_cases h1 : a.1 = k
    · have h2 : ¬ a.1 = k' := fun e => h (e.symm.trans h1)
      rw [List.filter_cons_of_neg (by simp [h1]),
        List.find?_cons_of_neg _ (by simp [h2]), ih]
    · by_cases h2 : a.1 = k'
      · rw [List.filter_cons_of_pos (by simp [h1]),
          List.find?_cons_of_pos _ (by simp [h2]),
          List.find?_cons_of_pos _ (by simp [h2])]
      · rw [List.filter_cons_of_pos (by simp [h1]),
          List.find?_cons_of_neg _ (by simp [h2]),
          List.find?_cons_of_neg _ (by simp [h2]), ih]

theorem getOr0_insertKV_ne (k k' : Address) (v : Nat) (l : List (Address × Nat))
    (h : k' ≠ k) : getOr0 k' (insertKV k v l) = getOr0 k' l := by
  have h1 : ¬ ((k, v).1 = k') := fun e => h e.symm
  unfold getOr0 insertKV
  rw [List.find?_cons_of_neg _ (by simp [h1]), find?_filter_ne k k' h l]

theorem filter_ne_of_not_mem (k : Address) (l : List (Address × Nat))
    (h : k ∉ l.map Prod.fst) : (l.filter fun p => p.1 ≠ k) = l := by
  apply List.filter_eq_self.mpr
  intro a ha
  simp only [decide_eq_true_eq]
  intro e
  exact h (e ▸ List.mem_map_of_mem Prod.fst ha)

theorem getOr0_not_mem (k : Address) (l : List (Address × Nat))
    (h : k ∉ l.map Prod.fst) : getOr0 k l = 0 := by
  unfold getOr0
  have : l.find? (fun p => decide (p.1 = k)) = none := by
    apply List.find?_eq_none.mpr
    intro a ha
    simp only [decide_eq_true_eq]
    intro e
    exact h (e ▸ List.mem_map_of_mem Prod.fst ha)
  simp [this]

theorem sum_filter_ne (k : Address) (l : List (Address × Nat)) (h : nodupKeys l) :
    (((l.filter fun p => p.1 ≠ k).map Prod.snd).sum + getOr0 k l =
      (l.map Prod.snd).sum) := by
  induction l with
  | nil => simp [getOr0]
  | cons a t ih =>
    unfold nodupKeys at h
    simp only [List.map_cons, List.nodup_cons] at h
    obtain ⟨hni, hnd⟩ := h
    by_cases h1 : a.1 = k
    · have hfil : (t.filter fun p => p.1 ≠ k) = t :=
        filter_ne_of_not_mem k t (h1 ▸ hni)
      have hg : getOr0 k (a :: t) = a.2 := by
        unfold getOr0
        rw [List.find?_cons_of_pos _ (by simp [h1])]
      rw [List.filter_cons_of_neg (by simp [h1]), hfil, hg]
      simp only [List.map_cons, List.sum_cons]
      omega
    · have hg : getOr0 k (a :: t) = getOr0 k t := by
        unfold getOr0
        rw [List.find?_cons_of_neg _ (by simp [h1])]
      rw [List.filter_cons_of_pos (by simp [h1]), hg]
      simp only [List.map_cons, List.sum_cons]
      have := ih hnd
      omega

theorem sum_insertKV (k : Address) (v : Nat) (l : List (Address × Nat))
    (h : nodupKeys l) :
    (((insertKV k v l).map Prod.snd).sum + getOr0 k l = (l.map Prod.snd).sum + v) := by
  simp only [insertKV, List.map_cons, List.sum_cons]
  have := sum_filter_ne k l h
  omega

theorem nodupKeys_insertKV (k : Address) (v : Nat) (l : List (Address × Nat))
    (h : nodupKeys l) : nodupKeys (insertKV k v l) := by
  unfold nodupKeys insertKV
  simp only [List.map_cons, List.nodup_cons]
  constructor
  · intro hmem
    obtain ⟨p, hp, he⟩ := List.mem_map.mp hmem
    have := List.of_mem_filter hp
    simp [he] at this
  · exact List.Nodup.sublist
      (List.Sublist.map Prod.fst (List.filter_sublist l)) h

theorem applyTransaction_error_state (st : State) (tx : Transaction)
    (e : BcError) (st1 : State)
    (h : st.applyTransaction tx = some (.error e, st1)) : st1 = st := by
  unfold State.applyTransaction at h
  split_ifs at h <;> simp_all

theorem applyTransaction_ok_elim (st : State) (tx : Transaction) (st1 : State)
    (h : st.applyTransaction tx = some (.ok (), st1)) :
    tx.nonce = st.storedNonce tx.sender + 1 ∧
    tx.amount ≤ st.getBalance tx.sender ∧
    st1.balances = insertKV tx.receiver
        (getOr0 tx.receiver (insertKV tx.sender (st.getBalance tx.sender - tx.amount) st.balances) + tx.amount)
        (insertKV tx.sender (st.getBalance tx.sender - tx.amount) st.balances) ∧
    st1.nonces = insertKV tx.sender tx.nonce st.nonces := by
  unfold State.applyTransaction at h
  split_ifs at h with h1 h2 h3 h4 <;>
    simp only [Option.some.injEq, Prod.mk.injEq, reduceCtorEq, false_and,
      and_false] at h
  obtain ⟨-, hst⟩ := h
  subst hst
  exact ⟨by omega, by omega, rfl, rfl⟩

theorem applyTransaction_invalid_nonce (st : State) (tx : Transaction)
    (hguard : st.storedNonce tx.sender + 1 < 2 ^ 64)
    (hbad : tx.nonce ≠ st.storedNonce tx.sender + 1) :
    st.applyTransaction tx = some (.error .invalidNonce, st) := by
  unfold State.applyTransaction
  rw [if_neg (by omega), if_pos hbad]

theorem applyTransaction_ok_nonces (st : State) (tx : Transaction) (st1 : State)
    (h : st.applyTransaction tx = some (.ok (), st1)) (a : Address) :
    st1.storedNonce a = if a = tx.sender then tx.nonce else st.storedNonce a := by
  obtain ⟨-, -, -, hn⟩ := applyTransaction_ok_elim st tx st1 h
  unfold State.storedNonce
  rw [hn]
  by_cases ha : a = tx.sender
  · rw [if_pos ha, ha, getOr0_insertKV_self]
  · rw [if_neg ha, getOr0_insertKV_ne _ _ _ _ ha]

theorem mineAux_fields : ∀ (fuel : Nat) (b b' : Block),
    mineAux fuel b = some b' →
    b'.previous_hash = b.previous_hash ∧ b'.transactions = b.transactions := by
  intro fuel
  induction fuel with
  | zero =>
    intro b b' h
    cases hv : isValidProof b with
    | true =>
      simp only [mineAux, hv, reduceIte, Option.some.injEq] at h
      subst h
      exact ⟨rfl, rfl⟩
    | false => simp [mineAux, hv] at h
  | succ n ih =>
    intro b b' h
    cases hv : isValidProof b with
    | true =>
      simp only [mineAux, hv, reduceIte, Option.some.injEq] at h
      subst h
      exact ⟨rfl, rfl⟩
    | false =>
      simp only [mineAux, hv, Bool.false_eq_true, reduceIte] at h
      simpa [mineStep] using ih (mineStep b) b' h

theorem genesisOk_ne_nil (bs : List Block) (h : genesisOk bs) : bs ≠ [] := by
  cases bs with
  | nil => exact h.elim
  | cons g rest => simp

theorem genesisOk_append (bs : List Block) (b : Block) (h : genesisOk bs) :
    genesisOk (bs ++ [b]) := by
  cases bs with
  | nil => exact h.elim
  | cons g rest => exact h

theorem linkedChain_append (bs : List Block) (b : Block) :
    linkedChain bs → bs ≠ [] → b.previous_hash = lastHash bs →
    linkedChain (bs ++ [b]) := by
  induction bs with
  | nil => intro _ hne _; exact absurd rfl hne
  | cons b1 rest ih =>
    intro hl _ hb
    cases rest with
    | nil =>
      refine ⟨?_, trivial⟩
      simpa [lastHash] using hb
    | cons b2 rest2 =>
      obtain ⟨h12, hl2⟩ := hl
      refine ⟨h12, ?_⟩
      refine ih hl2 (by simp) ?_
      rw [hb]
      unfold lastHash
      rw [List.getLast?_cons_cons]

theorem linkedChain_get (bs : List Block) (h : linkedChain bs) :
    ∀ i, (hi : i + 1 < bs.length) →
      (bs.get ⟨i + 1, hi⟩).previous_hash =
        (bs.get ⟨i, by omega⟩).hash := by
  induction bs with
  | nil => intro i hi; simp at hi
  | cons b1 rest ih =>
    cases rest with
    | nil => intro i hi; simp at hi
    | cons b2 rest2 =>
      obtain ⟨h12, hl2⟩ := h
      intro i hi
      cases i with
      | zero => simpa using h12
      | succ j =>
        simpa using ih hl2 j (by simpa using hi)

theorem addTransaction_blocks (pkv : PkOracle) (edv : EdOracle)
    (bc : Blockchain) (tx : Transaction) (r : Except BcError Unit)
    (bc1 : Blockchain)
    (h : Blockchain.addTransaction pkv edv bc tx = some (r, bc1)) :
    bc1.blocks = bc.blocks := by
  unfold Blockchain.addTransaction at h
  split at h
  · simp only [Option.some.injEq, Prod.mk.injEq] at h
    rw [← h.2]
  · split at h <;> simp only [Option.some.injEq, Prod.mk.injEq, reduceCtorEq] at h
    · rw [← h.2]
    · rw [← h.2]

theorem reached_invariant (bc : Blockchain) (h : Reached bc) :
    genesisOk bc.blocks ∧ linkedChain bc.blocks := by
  induction h with
  | new ts fuel bc0 hnew =>
    unfold Blockchain.new at hnew
    rw [Option.map_eq_some'] at hnew
    obtain ⟨g, hg, hbc⟩ := hnew
    obtain ⟨hprev, htxs⟩ := mineAux_fields fuel _ g hg
    subst hbc
    exact ⟨⟨hprev, htxs⟩, trivial⟩
  | addTx pkv edv bc0 tx r bc1 _ hstep ih =>
    rw [addTransaction_blocks pkv edv bc0 tx r bc1 hstep]
    exact ih
  | mine pkv edv bc0 ts fuel r bc1 _ hstep ih =>
    unfold Blockchain.mineBlock at hstep
    obtain ⟨hgen, hlink⟩ := ih
    cases hbn : Block.new ts bc0.pending_transactions (lastHash bc0.blocks) fuel with
    | none => rw [hbn] at hstep; exact absurd hstep (by simp)
    | some b =>
      simp only [hbn] at hstep
      cases hbv : blockVerify pkv edv b with
      | error e =>
        simp only [hbv] at hstep
        simp only [Option.some.injEq, Prod.mk.injEq] at hstep
        rw [← hstep.2]
        exact ⟨hgen, hlink⟩
      | ok u =>
        simp only [hbv] at hstep
        simp only [Option.some.injEq, Prod.mk.injEq] at hstep
        rw [← hstep.2]
        have hprev : b.previous_hash = lastHash bc0.blocks :=
          (mineAux_fields fuel _ b hbn).1
        exact ⟨genesisOk_append _ b hgen,
          linkedChain_append _ b hlink (genesisOk_ne_nil _ hgen) hprev⟩

theorem applyTransaction_ok_intro (st : State) (tx : Transaction)
    (hguard : st.storedNonce tx.sender + 1 < 2 ^ 64)
    (hnonce : tx.nonce = st.storedNonce tx.sender + 1)
    (hbal : tx.amount ≤ st.getBalance tx.sender)
    (hcredit : getOr0 tx.receiver (insertKV tx.sender (st.getBalance tx.sender - tx.amount) st.balances) + tx.amount < 2 ^ 64) :
    st.applyTransaction tx = some (.ok (),
      ⟨insertKV tx.receiver
          (getOr0 tx.receiver (insertKV tx.sender (st.getBalance tx.sender - tx.amount) st.balances) + tx.amount)
          (insertKV tx.sender (st.getBalance tx.sender - tx.amount) st.balances),
        insertKV tx.sender tx.nonce st.nonces⟩) := by
  unfold State.applyTransaction
  rw [if_neg (by omega), if_neg (by omega), if_neg (by omega), if_neg (by omega)]

theorem applyChain_nonces (txs : List Transaction) :
    ∀ (st st' : State) (a : Address),
      applyChain st txs = some st' →
      ((txs.filter fun tx => tx.sender == a).map Transaction.nonce)
        = List.range' (st.storedNonce a + 1)
            ((txs.filter fun tx => tx.sender == a).length) := by
  induction txs with
  | nil => intro st st' a _; rfl
  | cons tx rest ih =>
    intro st st' a h
    cases hap : st.applyTransaction tx with
    | none => simp [applyChain, hap] at h
    | some pr =>
      obtain ⟨r, st1⟩ := pr
      cases r with
      | error e => simp [applyChain, hap] at h
      | ok u =>
        cases u
        simp only [applyChain, hap] at h
        have hnonce := (applyTransaction_ok_elim st tx st1 hap).1
        have hst1 := applyTransaction_ok_nonces st tx st1 hap a
        by_cases ha : tx.sender = a
        · have hsa : st1.storedNonce a = tx.nonce := by
            rw [hst1, if_pos ha.symm]
          have htail := ih st1 st' a h
          rw [List.filter_cons_of_pos (by simp [ha]), List.map_cons,
            List.length_cons, hnonce, ha]
          rw [htail, hsa, hnonce, ha]
          rfl
        · have hsa : st1.storedNonce a = st.storedNonce a := by
            rw [hst1, if_neg (fun e => ha e.symm)]
          have htail := ih st1 st' a h
          rw [List.filter_cons_of_neg (by simp [ha]), htail, hsa]

end Core

namespace Pos

theorem pairUp_evened (hs : List (List Nat)) :
    pairUp (evened hs) = levelRef hs := by
  induction hs using levelRef.induct with
  | case1 => rfl
  | case2 a => simp [evened, pairUp, levelRef]
  | case3 a b rest ih =>
    by_cases hpar : (a :: b :: rest).length % 2 = 0
    · have hrest : rest.length % 2 = 0 := by
        simp only [List.length_cons] at hpar
        omega
      have heq : evened (a :: b :: rest) = a :: b :: rest := by
        unfold evened
        rw [if_neg (by simp only [List.length_cons] at hpar ⊢; omega)]
      have heqr : evened rest = rest := by
        unfold evened
        rw [if_neg (by omega)]
      have hp : pairUp rest = levelRef rest := by
        rw [heqr] at ih
        exact ih
      rw [heq]
      show Smv.sha256 (a ++ b) :: pairUp rest = levelRef (a :: b :: rest)
      rw [hp]
      rfl
    · have hodd : rest.length % 2 = 1 := by
        simp only [List.length_cons] at hpar
        omega
      obtain ⟨c, rest2, rfl⟩ : ∃ c rest2, rest = c :: rest2 := by
        cases rest with
        | nil => simp at hodd
        | cons c rest2 => exact ⟨c, rest2, rfl⟩
      have hlast : (a :: b :: c :: rest2).getLastD [] = (c :: rest2).getLastD [] := by
        simp only [List.getLastD_cons]
      have heq : evened (a :: b :: c :: rest2) = a :: b :: evened (c :: rest2) := by
        unfold evened
        rw [if_pos hpar, if_pos (by omega), hlast]
        simp
      rw [heq]
      show Smv.sha256 (a ++ b) :: pairUp (evened (c :: rest2)) = levelRef (a :: b :: c :: rest2)
      rw [ih]
      rfl

theorem merkleLoop_eq_rootRef : ∀ (fuel : Nat) (hs : List (List Nat)),
    merkleLoop fuel hs = rootRef fuel hs := by
  intro fuel
  induction fuel with
  | zero =>
    intro hs
    match hs with
    | [] => rfl
    | [h] => rfl
    | a :: b :: rest => rfl
  | succ n ih =>
    intro hs
    match hs with
    | [] => rfl
    | [h] => rfl
    | a :: b :: rest =>
      show merkleLoop n (pairUp (evened (a :: b :: rest))) = rootRef n (levelRef (a :: b :: rest))
      rw [pairUp_evened, ih]

theorem levelRef_length (hs : List (List Nat)) :
    (levelRef hs).length = (hs.length + 1) / 2 := by
  induction hs using levelRef.induct <;> simp [levelRef, *] <;> omega

theorem rootRef_fuel_stable : ∀ (fuel : Nat) (hs : List (List Nat)),
    hs.length ≤ fuel + 1 → rootRef fuel hs = rootRef (fuel + 1) hs := by
  intro fuel
  induction fuel with
  | zero =>
    intro hs h
    match hs with
    | [] => rfl
    | [h] => rfl
    | a :: b :: rest => simp at h
  | succ n ih =>
    intro hs h
    match hs with
    | [] => rfl
    | [h] => rfl
    | a :: b :: rest =>
      show rootRef n (levelRef (a :: b :: rest)) = rootRef (n + 1) (levelRef (a :: b :: rest))
      apply ih
      have := levelRef_length (a :: b :: rest)
      simp only [List.length_cons] at this h ⊢
      omega

theorem getUser_pred (db : UserDb) (a : List Nat) (u : User)
    (h : getUser db a = some u) : u.address = a := by
  have := List.find?_some h
  simpa using this

theorem getUser_updateUser_self (db : UserDb) (u w : User)
    (hu : getUser db u.address = some u) (hw : w.address = u.address) :
    getUser (updateUser db w) u.address =
      some { u with balance := w.balance, stake := w.stake } := by
  induction db with
  | nil => simp [getUser] at hu
  | cons v rest ih =>
    by_cases hv : v.address = u.address
    · have hveq : v = u := by
        unfold getUser at hu
        rw [List.find?_cons_of_pos _ (by simp [hv])] at hu
        exact Option.some.inj hu
      subst hveq
      have hcond : v.address = w.address := hw.symm
      unfold updateUser getUser
      rw [List.map_cons,
        show (if v.address = w.address then { v with balance := w.balance, stake := w.stake } else v)
            = { v with balance := w.balance, stake := w.stake } from if_pos hcond,
        List.find?_cons_of_pos _ (by simp)]
    · have hvw : ¬ v.address = w.address := fun e => hv (e.trans hw)
      have hrest : getUser rest u.address = some u := by
        unfold getUser at hu
        rw [List.find?_cons_of_neg _ (by simp [hv])] at hu
        exact hu
      unfold updateUser getUser at ih ⊢
      rw [List.map_cons, List.find?_cons_of_neg _ (by simp [hvw, hv])]
      exact ih hrest

end Pos

/-! Claim theorems. -/

set_option maxRecDepth 100000 in
set_option maxHeartbeats 2000000 in
/-- C1: the claim states that full validation accepts exactly the
transactions with `nonce == state.nonce(sender) + 1`, the state nonce of a
fresh sender being 0, so that a nonce-1 transaction from a funded,
previously unseen sender passes.  The code disagrees: `get_nonce` already
returns the stored nonce plus one, and `validate_full` compares against
`get_nonce(sender) + 1`, i.e. the stored nonce plus two.  At the exact
input of the repository test `test_full_validation_success` (stored nonce
0, balance 1000, amount 500, nonce 1, valid signature), `validate_full`
returns InvalidNonce even though `apply_transaction` accepts the same
transaction from the same state. -/
theorem c1_validate_full_requires_stored_plus_two :
    Core.validateFull pkvTrue edvTrue stW1 txW1 = some (.error .invalidNonce) ∧
    (Core.State.applyTransaction stW1 txW1).map Prod.fst = some (.ok ()) := by
  constructor
  · decide
  · decide

/-- C2: every ledger built by `Blockchain::new` and evolved only by
`add_transaction` and `mine_block` keeps the chain-linkage invariant:
the first block is a genesis block (previous hash of 32 zero bytes, no
transactions) and every later block's previous hash is the stored hash of
its predecessor. -/
theorem c2_chain_linkage (bc : Core.Blockchain) (h : Core.Reached bc) :
    Core.genesisOk bc.blocks ∧
    ∀ i, 0 < i → (hi : i < bc.blocks.length) →
      (bc.blocks.get ⟨i, hi⟩).previous_hash =
        (bc.blocks.get ⟨i - 1, by omega⟩).hash := by
  obtain ⟨hg, hl⟩ := Core.reached_invariant bc h
  refine ⟨hg, ?_⟩
  intro i h0 hi
  obtain ⟨j, rfl⟩ : ∃ j, i = j + 1 := ⟨i - 1, by omega⟩
  simpa using Core.linkedChain_get bc.blocks hl j hi

set_option maxRecDepth 100000 in
set_option maxHeartbeats 2000000 in
/-- C2 witness: the ledger created at clock value 94594 (genesis mines at
nonce 1 within fuel 1) is reached, and the theorem yields its genesis
property. -/
theorem c2_chain_linkage_witness :
    Core.Blockchain.new 94594 1 = some bcG ∧ Core.genesisOk bcG.blocks :=
  have hnew : Core.Blockchain.new 94594 1 = some bcG := by decide
  ⟨hnew, (c2_chain_linkage bcG (Core.Reached.new 94594 1 bcG hnew)).1⟩

set_option maxRecDepth 100000 in
set_option maxHeartbeats 2000000 in
/-- C3: the claim states that a freshly mined block's stored hash always
equals the recomputed hash and satisfies the difficulty, so that
`verify()` never returns InvalidHash.  The mining loop only writes the
hash field inside its body; when the initial nonce-0 contents already
satisfy the difficulty the loop exits at once and the stored hash remains
the 32 zero bytes it was initialised with.  At clock value 24395 (empty
transactions, zero previous hash) this happens: the block that
`Block::new` returns keeps hash 0x00...00, which differs from
`calculate_hash`, and `verify()` returns InvalidHash — contradicting the
`block.verify()?` step of `mine_block` itself. -/
theorem c3_mining_can_leave_hash_unset :
    Core.Block.new 24395 [] (Smv.zeroBytes 32) 5 = some b24 ∧
    b24.hash = Smv.zeroBytes 32 ∧
    b24.hash ≠ Core.calculateHash b24 ∧
    Core.blockVerify pkvTrue edvTrue b24 = .error .invalidHash := by
  refine ⟨by decide, by decide, by decide, by decide⟩

set_option maxRecDepth 100000 in
set_option maxHeartbeats 2000000 in
/-- C4 counterexample: the claim describes the Merkle leaves as the
signature-excluding per-transaction hashes; `compute_merkle_root`
actually hashes the bincode encoding of the whole transaction, public key
and signature included, so already on a single concrete transaction the
two roots differ. -/
theorem c4_merkle_leaf_counterexample :
    Pos.computeMerkleRoot [txP] ≠ Pos.merkleRef Pos.leafClaim [txP] := by
  decide

/-- C4 amended: the Merkle root equals the reference reduction (duplicate
the last hash at odd levels, pair-hash adjacent hashes, empty set to the
hash of the empty byte string) over leaves that are SHA-256 of the
bincode encoding of the entire transaction, signature and public key
included. -/
theorem c4_merkle_root_full_encoding (txs : List Pos.Transaction) :
    Pos.computeMerkleRoot txs = Pos.merkleRef Pos.leafCode txs := by
  unfold Pos.computeMerkleRoot Pos.merkleRef
  by_cases he : txs.isEmpty
  · rw [if_pos he, if_pos he]
  · rw [if_neg he, if_neg he, Pos.merkleLoop_eq_rootRef]

/-- C5: along any successfully applied transaction list from the empty
state, the nonces accepted from any one sender are exactly 1, 2, 3, …;
and a transaction whose nonce is not the stored nonce plus one is
rejected with InvalidNonce, leaving the state unchanged. -/
theorem c5_nonce_monotonicity :
    (∀ (txs : List Core.Transaction) (st' : Core.State) (a : Core.Address),
      Core.applyChain Core.State.empty txs = some st' →
      (((txs.filter fun tx => tx.sender == a).map Core.Transaction.nonce)
        = List.range' 1 ((txs.filter fun tx => tx.sender == a).length)))
    ∧ (∀ (st : Core.State) (tx : Core.Transaction),
      st.storedNonce tx.sender + 1 < 2 ^ 64 →
      tx.nonce ≠ st.storedNonce tx.sender + 1 →
      st.applyTransaction tx = some (.error .invalidNonce, st)) := by
  constructor
  · intro txs st' a h
    have hres := Core.applyChain_nonces txs Core.State.empty st' a h
    simpa [Core.State.storedNonce, Core.State.empty, Core.getOr0] using hres
  · exact fun st tx h1 h2 => Core.applyTransaction_invalid_nonce st tx h1 h2

/-- C5 witness: two transactions with nonces 1 and 2 from one sender
apply successfully from the empty state and their accepted nonces are
[1, 2]; the skipping nonce 7 is rejected with InvalidNonce. -/
theorem c5_nonce_monotonicity_witness :
    (Core.applyChain Core.State.empty [txA1, txA2] = some stW5 ∧
      (([txA1, txA2].filter fun tx => tx.sender == addrA).map Core.Transaction.nonce)
        = List.range' 1 (([txA1, txA2].filter fun tx => tx.sender == addrA).length)) ∧
    (Core.State.empty.storedNonce txA7.sender + 1 < 2 ^ 64 ∧
      txA7.nonce ≠ Core.State.empty.storedNonce txA7.sender + 1 ∧
      Core.State.empty.applyTransaction txA7 = some (.error .invalidNonce, Core.State.empty)) :=
  ⟨⟨by decide, c5_nonce_monotonicity.1 [txA1, txA2] stW5 addrA (by decide)⟩,
   ⟨by decide, by decide,
    c5_nonce_monotonicity.2 Core.State.empty txA7 (by decide) (by decide)⟩⟩

/-- C6: whenever `apply_transaction` succeeds on a transaction whose
sender differs from its receiver, the sum of all account balances is
unchanged: value is moved, never created or destroyed. -/
theorem c6_conservation (st : Core.State) (tx : Core.Transaction)
    (hwf : Core.nodupKeys st.balances) (hne : tx.sender ≠ tx.receiver)
    (st1 : Core.State) (h : st.applyTransaction tx = some (.ok (), st1)) :
    Core.sumBalances st1 = Core.sumBalances st := by
  obtain ⟨-, hbal, hb, -⟩ := Core.applyTransaction_ok_elim st tx st1 h
  have hl1 : Core.nodupKeys (Core.insertKV tx.sender (st.getBalance tx.sender - tx.amount) st.balances) :=
    Core.nodupKeys_insertKV _ _ _ hwf
  have h1 := Core.sum_insertKV tx.sender (st.getBalance tx.sender - tx.amount) st.balances hwf
  have h2 := Core.sum_insertKV tx.receiver
    (Core.getOr0 tx.receiver (Core.insertKV tx.sender (st.getBalance tx.sender - tx.amount) st.balances) + tx.amount)
    (Core.insertKV tx.sender (st.getBalance tx.sender - tx.amount) st.balances) hl1
  have h4 : Core.getOr0 tx.sender st.balances = st.getBalance tx.sender := rfl
  unfold Core.sumBalances
  rw [hb]
  omega

/-- C6 witness: moving 3 from the account holding 10 to the account
holding 5 keeps the total at 15. -/
theorem c6_conservation_witness :
    (Core.nodupKeys stW6.balances ∧ txW6.sender ≠ txW6.receiver ∧
      stW6.applyTransaction txW6 = some (.ok (), stW6a)) ∧
    Core.sumBalances stW6a = Core.sumBalances stW6 :=
  ⟨⟨by decide, by decide, by decide⟩,
   c6_conservation stW6 txW6 (by decide) (by decide) stW6a (by decide)⟩

/-- C7: whenever `Blockchain::add_transaction` returns an error, the
ledger is unchanged — blocks, state (balances and nonces), and pending
pool are exactly as before the call; the source returns before any
mutation on every error path. -/
theorem c7_error_leaves_ledger_unchanged (pkv : Core.PkOracle)
    (edv : Core.EdOracle) (bc : Core.Blockchain) (tx : Core.Transaction)
    (e : Core.BcError) (bc1 : Core.Blockchain)
    (h : Core.Blockchain.addTransaction pkv edv bc tx = some (.error e, bc1)) :
    bc1 = bc := by
  unfold Core.Blockchain.addTransaction at h
  cases hv : Core.txVerify pkv edv tx with
  | error e0 =>
    simp only [hv, Option.some.injEq, Prod.mk.injEq] at h
    exact h.2.symm
  | ok u =>
    cases u
    simp only [hv] at h
    cases hap : bc.state.applyTransaction tx with
    | none => simp [hap] at h
    | some pr =>
      obtain ⟨r, st1⟩ := pr
      cases r with
      | error e1 =>
        simp only [hap, Option.some.injEq, Prod.mk.injEq] at h
        rw [← h.2, Core.applyTransaction_error_state bc.state tx e1 st1 hap]
      | ok u2 =>
        cases u2
        simp only [hap, Option.some.injEq, Prod.mk.injEq, reduceCtorEq,
          false_and, and_false] at h

set_option maxRecDepth 100000 in
set_option maxHeartbeats 2000000 in
/-- C7 witness: the concrete scenario of the claim — sender balance 0,
amount 50, nonce 1, valid signature — yields InsufficientBalance and the
ledger (in particular its single block) is unchanged. -/
theorem c7_error_leaves_ledger_unchanged_witness :
    (Core.Blockchain.addTransaction pkvTrue edvTrue bcW7 txW7 =
      some (.error .insufficientBalance, bcW7)) ∧
    bcW7 = bcW7 ∧ bcW7.blocks.length = 1 :=
  ⟨by decide,
   c7_error_leaves_ledger_unchanged pkvTrue edvTrue bcW7 txW7
     .insufficientBalance bcW7 (by decide),
   by decide⟩

/-- C8 counterexample: the claim states that a transaction failing to
apply during `from_blocks` is reported as a fatal chain-invalid error;
the source instead discards the error
(`apply_transaction(tx).unwrap_or_else(|_| ())`).  A block containing a
transaction with the unappliable nonce 5 rebuilds without any error into
a ledger whose state ignored that transaction entirely. -/
theorem c8_failing_tx_ignored :
    Core.State.empty.applyTransaction txA7 =
      some (.error .invalidNonce, Core.State.empty) ∧
    Core.Blockchain.fromBlocks [blockBad] =
      some ⟨[blockBad], Core.State.empty, []⟩ :=
  ⟨by decide, by decide⟩

/-- C8 amended: a transaction that fails to apply during the rebuild is
silently skipped — the replay continues on the unchanged state as if the
transaction were absent — and `from_blocks` reports no error. -/
theorem c8_rebuild_skips_failures (st : Core.State) (tx : Core.Transaction)
    (rest : List Core.Transaction) (e : Core.BcError) (st1 : Core.State)
    (h : st.applyTransaction tx = some (.error e, st1)) :
    Core.replayAux st (tx :: rest) = Core.replayAux st rest := by
  have hst := Core.applyTransaction_error_state st tx e st1 h
  subst hst
  simp [Core.replayAux, h]

/-- C8 witness: replaying the nonce-5 transaction from the empty state is
the same as replaying nothing. -/
theorem c8_rebuild_skips_failures_witness :
    Core.State.empty.applyTransaction txA7 =
      some (.error .invalidNonce, Core.State.empty) ∧
    Core.replayAux Core.State.empty [txA7] =
      Core.replayAux Core.State.empty [] :=
  ⟨by decide,
   c8_rebuild_skips_failures Core.State.empty txA7 [] .invalidNonce
     Core.State.empty (by decide)⟩

set_option maxRecDepth 100000 in
set_option maxHeartbeats 2000000 in
/-- C9 counterexample: the claim states that `Blockchain::add_transaction`
rejects every transaction whose sender equals its receiver; the source
has no such check, and a concrete self-transfer with a valid signature,
correct nonce and sufficient balance is accepted. -/
theorem c9_self_transfer_accepted :
    txSelf.sender = txSelf.receiver ∧
    (Core.Blockchain.addTransaction pkvTrue edvTrue bcW9 txSelf).map Prod.fst =
      some (.ok ()) :=
  ⟨rfl, by decide⟩

/-- C9 amended: `Blockchain::add_transaction` performs no
sender-versus-receiver comparison; an otherwise valid self-transfer is
accepted, appended to the pending pool, and leaves the sender's balance
unchanged while recording the new nonce.  (The sender ≠ receiver
rejection of the specification lives only in the stake-weighted node's
`send_transaction` wrapper, not in the core ledger.) -/
theorem c9_add_transaction_lacks_self_check (pkv : Core.PkOracle)
    (edv : Core.EdOracle) (bc : Core.Blockchain) (tx : Core.Transaction)
    (hself : tx.sender = tx.receiver)
    (hver : Core.txVerify pkv edv tx = .ok ())
    (hguard : bc.state.storedNonce tx.sender + 1 < 2 ^ 64)
    (hnonce : tx.nonce = bc.state.storedNonce tx.sender + 1)
    (hbal : tx.amount ≤ bc.state.getBalance tx.sender)
    (hmax : bc.state.getBalance tx.sender < 2 ^ 64) :
    ∃ st1 : Core.State,
      Core.Blockchain.addTransaction pkv edv bc tx =
        some (.ok (), { bc with state := st1, pending_transactions := bc.pending_transactions ++ [tx] }) ∧
      st1.getBalance tx.sender = bc.state.getBalance tx.sender ∧
      st1.storedNonce tx.sender = tx.nonce := by
  have hrecv : tx.receiver = tx.sender := hself.symm
  have hrb : Core.getOr0 tx.receiver
      (Core.insertKV tx.sender (bc.state.getBalance tx.sender - tx.amount) bc.state.balances) =
      bc.state.getBalance tx.sender - tx.amount := by
    rw [hrecv, Core.getOr0_insertKV_self]
  have happ := Core.applyTransaction_ok_intro bc.state tx hguard hnonce hbal
    (by rw [hrb]; omega)
  refine ⟨⟨Core.insertKV tx.receiver
      (Core.getOr0 tx.receiver (Core.insertKV tx.sender (bc.state.getBalance tx.sender - tx.amount) bc.state.balances) + tx.amount)
      (Core.insertKV tx.sender (bc.state.getBalance tx.sender - tx.amount) bc.state.balances),
    Core.insertKV tx.sender tx.nonce bc.state.nonces⟩, ?_, ?_, ?_⟩
  · unfold Core.Blockchain.addTransaction
    simp only [hver, happ]
  · unfold Core.State.getBalance
    show Core.getOr0 tx.sender (Core.insertKV tx.receiver _ _) = _
    rw [hrecv, Core.getOr0_insertKV_self, Core.getOr0_insertKV_self]
    have h5 : bc.state.getBalance tx.sender = Core.getOr0 tx.sender bc.state.balances := rfl
    omega
  · unfold Core.State.storedNonce
    exact Core.getOr0_insertKV_self _ _ _

set_option maxRecDepth 100000 in
set_option maxHeartbeats 2000000 in
/-- C9 witness: the concrete self-transfer of 50 out of a balance of 100
satisfies every hypothesis, and the amended theorem follows at it. -/
theorem c9_add_transaction_lacks_self_check_witness :
    (txSelf.sender = txSelf.receiver ∧
      Core.txVerify pkvTrue edvTrue txSelf = .ok () ∧
      bcW9.state.storedNonce txSelf.sender + 1 < 2 ^ 64 ∧
      txSelf.nonce = bcW9.state.storedNonce txSelf.sender + 1 ∧
      txSelf.amount ≤ bcW9.state.getBalance txSelf.sender ∧
      bcW9.state.getBalance txSelf.sender < 2 ^ 64) ∧
    (∃ st1 : Core.State,
      Core.Blockchain.addTransaction pkvTrue edvTrue bcW9 txSelf =
        some (.ok (), { bcW9 with state := st1, pending_transactions := bcW9.pending_transactions ++ [txSelf] }) ∧
      st1.getBalance txSelf.sender = bcW9.state.getBalance txSelf.sender ∧
      st1.storedNonce txSelf.sender = txSelf.nonce) :=
  ⟨⟨rfl, by decide, by decide, by decide, by decide, by decide⟩,
   c9_add_transaction_lacks_self_check pkvTrue edvTrue bcW9 txSelf rfl
     (by decide) (by decide) (by decide) (by decide) (by decide)⟩

set_option maxRecDepth 100000 in
set_option maxHeartbeats 2000000 in
/-- C10 counterexample: the claim states that the reward is
floor(stake / total_stake).  The source computes
`(stake as f64 / total_stake as f64).round() as u64`, which rounds to the
nearest integer (half away from zero): a validator with stake 1 out of a
total stake of 2 receives 1, while floor(1 / 2) = 0 — its balance moves
from 10 to 11, not 10. -/
theorem c10_reward_rounds_not_floor :
    Pos.totalStake dbW = 2 ∧ valU.stake = 1 ∧
    Pos.rewardValidator dbW valU.address =
      some (.ok [{ valU with balance := 11 }, othU]) ∧
    valU.balance + valU.stake / Pos.totalStake dbW = 10 ∧ (11 : Nat) ≠ 10 :=
  ⟨rfl, rfl, by decide, by decide, by decide⟩

/-- C10 amended: `reward_validator` increases the validator's balance by
exactly the binary64 value `round(stake / total_stake)` (round half away
from zero, as modelled exactly by `rewardOf`), leaving the account's
address, public key and stake unchanged. -/
theorem c10_reward_amended (db : Pos.UserDb) (a : List Nat) (u : Pos.User)
    (hu : Pos.getUser db a = some u) (hT : 0 < Pos.totalStake db)
    (hov : u.balance + Pos.rewardOf u.stake (Pos.totalStake db) < 2 ^ 64) :
    ∃ db2, Pos.rewardValidator db a = some (.ok db2) ∧
      Pos.getUser db2 a =
        some { u with balance := u.balance + Pos.rewardOf u.stake (Pos.totalStake db) } := by
  have haddr : u.address = a := Pos.getUser_pred db a u hu
  refine ⟨Pos.updateUser db { u with balance := u.balance + Pos.rewardOf u.stake (Pos.totalStake db) }, ?_, ?_⟩
  · unfold Pos.rewardValidator
    simp only [hu]
    rw [if_neg (by omega)]
  · rw [← haddr]
    have hres := Pos.getUser_updateUser_self db u
      { u with balance := u.balance + Pos.rewardOf u.stake (Pos.totalStake db) }
      (haddr ▸ hu) rfl
    simpa using hres

set_option maxRecDepth 100000 in
set_option maxHeartbeats 2000000 in
/-- C10 witness: at the stake-1-of-2 table the amended theorem applies
and produces the balance 10 + rewardOf 1 2 = 11. -/
theorem c10_reward_amended_witness :
    (Pos.getUser dbW [1] = some valU ∧ 0 < Pos.totalStake dbW ∧
      valU.balance + Pos.rewardOf valU.stake (Pos.totalStake dbW) < 2 ^ 64) ∧
    (∃ db2, Pos.rewardValidator dbW [1] = some (.ok db2) ∧
      Pos.getUser db2 [1] =
        some { valU with balance := valU.balance + Pos.rewardOf valU.stake (Pos.totalStake dbW) }) :=
  ⟨⟨by decide, by decide, by decide⟩,
   c10_reward_amended dbW [1] valU (by decide) (by decide) (by decide)⟩
